import Mathlib

/-!
Verification of the checkpoint lifecycle and coordination engine
(`neuronx_distributed/trainer/checkpoint.py`).

The Python source is shallowly embedded: storage listings become lists,
the tag markers become booleans, dictionaries become functions, and the
stateful lifecycle methods become explicit state passing functions that
return `Except` where the source can raise.
-/

/-! ## Retention policy (`_determine_remove_tags`)

Storage is observed as the ordered list returned by
`checkpoint_dir.list_checkpoint_tags()` together with, for each tag,
whether the file `<tag>/done` exists.  We embed that observation as a
`List (String × Bool)` (tag name, done-marker present), in listing order
(oldest first). -/

/-- One iteration of the classification loop in `_determine_remove_tags`
(lines 53-65): a completed tag is appended to `completed_tags`; an
incomplete tag is appended to `corrupted_tags` only while
`completed_tags` is still empty. The accumulator is
`(corrupted_tags, completed_tags)`. -/
def classifyStep (acc : List String × List String) (tag : String × Bool) :
    List String × List String :=
  if tag.2 then (acc.1, acc.2 ++ [tag.1])
  else if acc.2.length = 0 then (acc.1 ++ [tag.1], acc.2) else acc

/-- The classification loop of `_determine_remove_tags` run over the whole
tag listing, starting from two empty lists. -/
def classifyTags (tags : List (String × Bool)) : List String × List String :=
  tags.foldl classifyStep ([], [])

/-- `_determine_remove_tags(checkpoint_dir, num_kept)` (lines 44-71).
`num_kept` is `Option Int`: `none` models Python `None`.
The removal list starts as the corrupted tags; when
`num_kept is not None and num_kept != -1 and len(completed_tags) > num_kept`
the slice `completed_tags[0 : len(completed_tags) - num_kept]` is appended. -/
def determineRemoveTags (tags : List (String × Bool)) (num_kept : Option Int) :
    List String :=
  let cls := classifyTags tags
  let corrupted_tags := cls.1
  let completed_tags := cls.2
  match num_kept with
  | none => corrupted_tags
  | some k =>
    if k ≠ -1 ∧ (completed_tags.length : Int) > k then
      corrupted_tags ++ completed_tags.take (((completed_tags.length : Int) - k).toNat)
    else
      corrupted_tags

/-! ### Closed form of the classification loop -/

theorem mem_of_mem_takeWhile {α} {p : α → Bool} {l : List α} {x : α}
    (h : x ∈ l.takeWhile p) : x ∈ l := by
  have h2 : x ∈ l.takeWhile p ++ l.dropWhile p := List.mem_append_left _ h
  rwa [List.takeWhile_append_dropWhile] at h2

theorem foldl_classifyStep (l : List (String × Bool)) (c d : List String) :
    l.foldl classifyStep (c, d) =
      (c ++ (if d.length = 0 then (l.takeWhile (fun p => !p.2)).map Prod.fst else []),
       d ++ (l.filter (fun p => p.2)).map Prod.fst) := by
  induction l generalizing c d with
  | nil => simp
  | cons p rest ih =>
    rw [List.foldl_cons]
    by_cases hp : p.2
    · rw [show classifyStep (c, d) p = (c, d ++ [p.1]) by simp [classifyStep, hp]]
      rw [ih]
      simp [hp, List.filter_cons, List.takeWhile_cons]
    · by_cases hd : d.length = 0
      · have hdnil : d = [] := List.length_eq_zero.mp hd
        rw [show classifyStep (c, d) p = (c ++ [p.1], d) by simp [classifyStep, hp, hd]]
        rw [ih]
        subst hdnil
        simp [hp, List.filter_cons, List.takeWhile_cons]
      · rw [show classifyStep (c, d) p = (c, d) by simp [classifyStep, hp, hd]]
        rw [ih]
        simp [hp, hd, List.filter_cons, List.takeWhile_cons]

theorem classifyTags_eq (tags : List (String × Bool)) :
    classifyTags tags =
      ((tags.takeWhile (fun p => !p.2)).map Prod.fst,
       (tags.filter (fun p => p.2)).map Prod.fst) := by
  rw [classifyTags, foldl_classifyStep]
  simp

/-- Under a duplicate-free tag listing, a tag name classified completed is
never also classified corrupted. -/
theorem completed_not_corrupted {tags : List (String × Bool)}
    (hnd : (tags.map Prod.fst).Nodup) :
    ∀ t ∈ (tags.filter (fun p => p.2)).map Prod.fst,
      t ∉ (tags.takeWhile (fun p => !p.2)).map Prod.fst := by
  intro t ht hc
  simp only [List.mem_map] at ht hc
  obtain ⟨b, hb, hbt⟩ := ht
  obtain ⟨a, ha, hat⟩ := hc
  have hbmem : b ∈ tags := List.mem_of_mem_filter hb
  have hamem : a ∈ tags := mem_of_mem_takeWhile ha
  have hbq : b.2 = true := by simpa using List.of_mem_filter hb
  have haq := @List.mem_takeWhile_imp _ (fun p : String × Bool => !p.2) tags a ha
  simp only [] at haq
  have hab : a = b := List.inj_on_of_nodup_map hnd hamem hbmem (hat.trans hbt.symm)
  rw [hab, hbq] at haq
  simp at haq

theorem completedNames_nodup {tags : List (String × Bool)}
    (hnd : (tags.map Prod.fst).Nodup) :
    ((tags.filter (fun p => p.2)).map Prod.fst).Nodup :=
  hnd.sublist ((tags.filter_sublist).map Prod.fst)

/-- For a duplicate-free list, filtering away the members of its own
`m`-element front leaves exactly the elements after position `m`. -/
theorem filter_not_mem_take {α} [DecidableEq α] (l : List α) (m : Nat)
    (hnd : l.Nodup) :
    (l.filter (fun t => decide (t ∉ l.take m))).length = l.length - m := by
  have hsplit : l.take m ++ l.drop m = l := List.take_append_drop m l
  have hnd2 : (l.take m ++ l.drop m).Nodup := by rwa [hsplit]
  have hdisj : (l.take m).Disjoint (l.drop m) := (List.nodup_append.mp hnd2).2.2
  have h1 : (l.take m).filter (fun t => decide (t ∉ l.take m)) = [] := by
    rw [List.filter_eq_nil_iff]
    intro a hmem
    simp [hmem]
  have h2 : (l.drop m).filter (fun t => decide (t ∉ l.take m)) = l.drop m := by
    rw [List.filter_eq_self]
    intro a hmem
    simp only [decide_eq_true_eq]
    exact fun hin => hdisj hin hmem
  have hstep : l.filter (fun t => decide (t ∉ l.take m))
      = (l.take m ++ l.drop m).filter (fun t => decide (t ∉ l.take m)) := by
    rw [hsplit]
  rw [hstep, List.filter_append, h1, h2, List.nil_append, List.length_drop]

theorem determineRemoveTags_some_eq (tags : List (String × Bool)) (K : Int) (hK : 0 ≤ K) :
    determineRemoveTags tags (some K)
      = (classifyTags tags).1
        ++ (classifyTags tags).2.take ((classifyTags tags).2.length - K.toNat) := by
  unfold determineRemoveTags
  by_cases h : ((classifyTags tags).2.length : Int) > K
  · have hne : K ≠ -1 := by omega
    simp only [hne, h, and_self, ne_eq, not_false_iff, if_true, true_and]
    have harith : (((classifyTags tags).2.length : Int) - K).toNat
        = (classifyTags tags).2.length - K.toNat := by omega
    rw [harith]
  · have hcond : ¬((K ≠ -1) ∧ ((classifyTags tags).2.length : Int) > K) := by
      intro hc
      exact h hc.2
    simp only [hcond, if_false]
    have harith : (classifyTags tags).2.length - K.toNat = 0 := by omega
    rw [harith, List.take_zero, List.append_nil]

/-- C1: for every ordered tag listing and keep count `K ≥ 0` with no
duplicate tag names, `_determine_remove_tags` returns exactly the corrupted
tags (the incomplete tags occurring before the first completed tag, in
listing order) followed by the oldest `n - K` completed tags (empty when
`n ≤ K`); exactly `min n K` completed tags are left outside the removal
list, and when `K` is "keep all" (`None` or `-1`) no completed tag is in
the removal list. -/
theorem retention_removal_correct (tags : List (String × Bool)) (K : Int)
    (hK : 0 ≤ K) (hnd : (tags.map Prod.fst).Nodup) :
    determineRemoveTags tags (some K)
      = (tags.takeWhile (fun p => !p.2)).map Prod.fst
        ++ ((tags.filter (fun p => p.2)).map Prod.fst).take
            (((tags.filter (fun p => p.2)).map Prod.fst).length - K.toNat)
    ∧ (((tags.filter (fun p => p.2)).map Prod.fst).filter
        (fun t => decide (t ∉ determineRemoveTags tags (some K)))).length
        = min ((tags.filter (fun p => p.2)).map Prod.fst).length K.toNat
    ∧ (∀ t ∈ (tags.filter (fun p => p.2)).map Prod.fst,
        t ∉ determineRemoveTags tags none)
    ∧ (∀ t ∈ (tags.filter (fun p => p.2)).map Prod.fst,
        t ∉ determineRemoveTags tags (some (-1))) := by
  have hcls := classifyTags_eq tags
  have heq := determineRemoveTags_some_eq tags K hK
  rw [hcls] at heq
  simp only [Prod.fst, Prod.snd] at heq
  set corrupted := (tags.takeWhile (fun p => !p.2)).map Prod.fst with hcor
  set completed := (tags.filter (fun p => p.2)).map Prod.fst with hcomp
  have hdisj : ∀ t ∈ completed, t ∉ corrupted := completed_not_corrupted hnd
  have hcnd : completed.Nodup := completedNames_nodup hnd
  have hnone : determineRemoveTags tags none = corrupted := by
    unfold determineRemoveTags
    rw [hcls]
  have hneg : determineRemoveTags tags (some (-1)) = corrupted := by
    unfold determineRemoveTags
    rw [hcls]
    simp
  refine ⟨heq, ?_, ?_, ?_⟩
  · have hcong : completed.filter
        (fun t => decide (t ∉ determineRemoveTags tags (some K)))
        = completed.filter
          (fun t => decide (t ∉ completed.take (completed.length - K.toNat))) := by
      apply List.filter_congr
      intro t ht
      rw [heq]
      simp only [decide_eq_decide, List.mem_append]
      constructor
      · intro hn hm
        exact hn (Or.inr hm)
      · intro hn hmm
        rcases hmm with hc | hm
        · exact hdisj t ht hc
        · exact hn hm
    rw [hcong, filter_not_mem_take completed (completed.length - K.toNat) hcnd]
    omega
  · intro t ht
    rw [hnone]
    exact hdisj t ht
  · intro t ht
    rw [hneg]
    exact hdisj t ht

theorem takeWhile_append_of_all {α} (p : α → Bool) (l₁ l₂ : List α)
    (h : ∀ a ∈ l₁, p a = true) :
    (l₁ ++ l₂).takeWhile p = l₁ ++ l₂.takeWhile p := by
  induction l₁ with
  | nil => simp
  | cons x xs ih =>
    have hx : p x = true := h x (List.mem_cons_self x xs)
    simp [List.takeWhile_cons, hx, ih (fun a ha => h a (List.mem_cons_of_mem x ha))]

theorem takeWhile_append_of_exists {α} (p : α → Bool) (l₁ l₂ : List α)
    (h : ∃ a ∈ l₁, p a = false) :
    (l₁ ++ l₂).takeWhile p = l₁.takeWhile p := by
  induction l₁ with
  | nil =>
    obtain ⟨a, ha, _⟩ := h
    cases ha
  | cons x xs ih =>
    by_cases hx : p x = true
    · have h2 : ∃ a ∈ xs, p a = false := by
        obtain ⟨a, ha, hpa⟩ := h
        rcases List.mem_cons.mp ha with rfl | ha2
        · rw [hx] at hpa
          cases hpa
        · exact ⟨a, ha2, hpa⟩
      simp [List.takeWhile_cons, hx, ih h2]
    · have hx2 : p x = false := by simpa using hx
      simp [List.takeWhile_cons, hx2]

/-- Every tag the removal computation returns was classified either
corrupted or completed. -/
theorem mem_determineRemoveTags {tags : List (String × Bool)} {K : Option Int}
    {t : String} (h : t ∈ determineRemoveTags tags K) :
    t ∈ (classifyTags tags).1 ∨ t ∈ (classifyTags tags).2 := by
  cases K with
  | none => exact Or.inl h
  | some k =>
    simp only [determineRemoveTags] at h
    by_cases hc : (k ≠ -1 ∧ ((classifyTags tags).2.length : Int) > k)
    · rw [if_pos hc] at h
      rcases List.mem_append.mp h with h1 | h2
      · exact Or.inl h1
      · exact Or.inr (List.take_subset _ _ h2)
    · rw [if_neg hc] at h
      exact Or.inl h

/-- C2: walking the tag listing oldest to newest, an incomplete tag is
classified corrupted if and only if it occurs before the first completed
tag; an incomplete tag occurring after some completed tag is never placed
in the removal list, for any keep count. -/
theorem corrupted_iff_before_first_completed (pre post : List (String × Bool))
    (nm : String)
    (hnd : ((pre ++ (nm, false) :: post).map Prod.fst).Nodup) :
    (nm ∈ (classifyTags (pre ++ (nm, false) :: post)).1 ↔ ∀ p ∈ pre, p.2 = false)
    ∧ ((∃ p ∈ pre, p.2 = true) →
        ∀ K : Option Int, nm ∉ determineRemoveTags (pre ++ (nm, false) :: post) K) := by
  set tags := pre ++ (nm, false) :: post with htags
  have hndsplit : (pre.map Prod.fst).Nodup ∧ (nm :: post.map Prod.fst).Nodup
      ∧ (pre.map Prod.fst).Disjoint (nm :: post.map Prod.fst) := by
    rw [htags, List.map_append, List.map_cons] at hnd
    exact List.nodup_append.mp hnd
  have hnm_pre : nm ∉ pre.map Prod.fst := by
    intro hmem
    exact hndsplit.2.2 hmem (List.mem_cons_self nm _)
  have hcor : (classifyTags tags).1 = (tags.takeWhile (fun p => !p.2)).map Prod.fst := by
    rw [classifyTags_eq]
  have hmem_iff : nm ∈ (classifyTags tags).1 ↔ ∀ p ∈ pre, p.2 = false := by
    rw [hcor]
    by_cases hall : ∀ p ∈ pre, p.2 = false
    · have hq : ∀ p ∈ pre, (fun p : String × Bool => !p.2) p = true := by
        intro p hp
        simp [hall p hp]
      rw [htags, takeWhile_append_of_all _ _ _ hq]
      constructor
      · intro _
        exact hall
      · intro _
        rw [List.map_append]
        refine List.mem_append_right _ ?_
        rw [List.takeWhile_cons]
        simp
    · have hex : ∃ p ∈ pre, (fun p : String × Bool => !p.2) p = false := by
        push_neg at hall
        obtain ⟨p, hp, hp2⟩ := hall
        refine ⟨p, hp, ?_⟩
        simp only [Bool.not_eq_false] at hp2 ⊢
        simp [hp2]
      rw [htags, takeWhile_append_of_exists _ _ _ hex]
      constructor
      · intro hmem
        exact absurd (List.map_subset Prod.fst (fun a ha => mem_of_mem_takeWhile ha) hmem) hnm_pre
      · intro hall2
        exact absurd hall2 hall
  refine ⟨hmem_iff, ?_⟩
  intro hex K hmem
  have hclass := mem_determineRemoveTags hmem
  rcases hclass with hc | hcomp
  · have : ∀ p ∈ pre, p.2 = false := hmem_iff.mp hc
    obtain ⟨p, hp, hp2⟩ := hex
    rw [this p hp] at hp2
    cases hp2
  · rw [classifyTags_eq] at hcomp
    simp only [List.mem_map] at hcomp
    obtain ⟨b, hb, hbnm⟩ := hcomp
    have hbtags : b ∈ tags := List.mem_of_mem_filter hb
    have hbtrue : b.2 = true := by simpa using List.of_mem_filter hb
    have hnmtags : ((nm, false) : String × Bool) ∈ tags := by
      rw [htags]
      exact List.mem_append_right _ (List.mem_cons_self _ _)
    have hbeq : b = (nm, false) := List.inj_on_of_nodup_map hnd hbtags hnmtags hbnm
    rw [hbeq] at hbtrue
    cases hbtrue


theorem retention_removal_correct_witness :
    determineRemoveTags [("a", false), ("b", true), ("c", true), ("d", true)] (some 2)
      = ["a", "b"] := by
  have h := (retention_removal_correct
    [("a", false), ("b", true), ("c", true), ("d", true)] 2 (by decide) (by decide)).1
  rw [h]
  decide

theorem corrupted_iff_before_first_completed_witness :
    ("b" ∉ determineRemoveTags [("a", true), ("b", false)] (some 1))
    ∧ "b" ∉ (classifyTags [("a", true), ("b", false)]).1 := by
  have h := corrupted_iff_before_first_completed [("a", true)] [] "b" (by decide)
  constructor
  · exact h.2 ⟨("a", true), by decide, rfl⟩ (some 1)
  · intro hmem
    have hall := h.1.mp hmem
    have h2 := hall ("a", true) (by decide)
    cases h2

/-! ## Tensor bin packer (`_assign_tensors_to_bins`)

A tensor is observed only through `torch.numel(tensor)` and
`tensor.element_size()`, so we embed it as that pair of numbers. -/

structure TensorMeta where
  numel : Nat
  element_size : Nat
deriving DecidableEq

/-- `torch.numel(tensor) * tensor.element_size()` (line 322). -/
def tensorByteSize (t : TensorMeta) : Nat := t.numel * t.element_size

/-- Python `min(sizes)` for a nonempty list (`min` raises on an empty
list; the packer only evaluates it when `bin_count > 0`). -/
def listMin : List Nat → Nat
  | [] => 0
  | x :: xs => xs.foldl min x

/-- Python `bin_sizes.index(min(bin_sizes))` (line 333): the position of
the first occurrence of the minimum. -/
def indexOfMin (sizes : List Nat) : Nat := sizes.indexOf (listMin sizes)

/-- One iteration of the assignment loop (lines 332-335): find the bin
with the smallest total, append the tensor index to it, add the tensor
size to its total.  The state is `(bin_tidxs, bin_sizes)`. -/
def packStep (st : List (List Nat) × List Nat) (ts : Nat × Nat) :
    List (List Nat) × List Nat :=
  let bid := indexOfMin st.2
  (st.1.set bid (st.1.getD bid [] ++ [ts.1]),
   st.2.set bid (st.2.getD bid 0 + ts.2))

/-- `_assign_tensors_to_bins(tensors, bin_count)` (lines 306-336):
enumerate the tensors into `(index, byte size)` pairs, sort by size
ascending (Python `sorted` is stable; insertion sort with `≤` on the
size is stable as well), then run the assignment loop starting from
`bin_count` empty bins. -/
def assign_tensors_to_bins (tensors : List TensorMeta) (bin_count : Nat) :
    List (List Nat) :=
  let tensor_sizes := tensors.enum.map (fun it => (it.1, tensorByteSize it.2))
  let sorted_sizes := List.insertionSort (fun a b => a.2 ≤ b.2) tensor_sizes
  (sorted_sizes.foldl packStep
    (List.replicate bin_count [], List.replicate bin_count 0)).1

/-- Reference algorithm stated by the spec (section 4.3), written
independently of the loop above: walk the size-sorted pairs recursively
and put each index into the bin whose running total is currently
smallest. -/
def specAssignGo (pairs : List (Nat × Nat)) (bins : List (List Nat))
    (totals : List Nat) : List (List Nat) :=
  match pairs with
  | [] => bins
  | (idx, size) :: rest =>
    let b := totals.indexOf (listMin totals)
    specAssignGo rest (bins.set b (bins.getD b [] ++ [idx]))
      (totals.set b (totals.getD b 0 + size))

/-- Reference partition per the spec: byte size is
`elementCount × elementSizeBytes`, pairs are sorted by size ascending,
each pair goes to the currently least-loaded bin. -/
def specAssignTensorsToBins (tensors : List TensorMeta) (bin_count : Nat) :
    List (List Nat) :=
  specAssignGo
    (List.insertionSort (fun a b => a.2 ≤ b.2)
      (tensors.enum.map (fun it => (it.1, it.2.numel * it.2.element_size))))
    (List.replicate bin_count []) (List.replicate bin_count 0)

theorem foldl_packStep_eq_specAssignGo (pairs : List (Nat × Nat))
    (bins : List (List Nat)) (totals : List Nat) :
    (pairs.foldl packStep (bins, totals)).1 = specAssignGo pairs bins totals := by
  induction pairs generalizing bins totals with
  | nil => rfl
  | cons p rest ih =>
    rw [List.foldl_cons]
    cases p with
    | mk idx size =>
      rw [specAssignGo]
      exact ih _ _

/-- C3: the bin packer computes exactly the partition produced by the
reference algorithm of the spec: byte size is
elementCount times elementSizeBytes, the (index, size) pairs are sorted
by size ascending, and each pair in that order goes to the bin whose
running total is currently smallest. -/
theorem assign_tensors_matches_spec (tensors : List TensorMeta) (bin_count : Nat) :
    assign_tensors_to_bins tensors bin_count
      = specAssignTensorsToBins tensors bin_count := by
  unfold assign_tensors_to_bins specAssignTensorsToBins
  rw [foldl_packStep_eq_specAssignGo]
  rfl

theorem foldl_min_mem (xs : List Nat) : ∀ x : Nat, xs.foldl min x ∈ x :: xs := by
  induction xs with
  | nil =>
    intro x
    exact List.mem_singleton.mpr rfl
  | cons y ys ih =>
    intro x
    rw [List.foldl_cons]
    have h := ih (min x y)
    rcases List.mem_cons.mp h with h1 | h2
    · rw [h1]
      rcases min_choice x y with hm | hm
      · rw [hm]
        exact List.mem_cons_self _ _
      · rw [hm]
        exact List.mem_cons_of_mem _ (List.mem_cons_self _ _)
    · exact List.mem_cons_of_mem _ (List.mem_cons_of_mem _ h2)

theorem listMin_mem (sizes : List Nat) (h : sizes ≠ []) : listMin sizes ∈ sizes := by
  cases sizes with
  | nil => cases h rfl
  | cons x xs => exact foldl_min_mem xs x

theorem indexOfMin_lt (sizes : List Nat) (h : sizes ≠ []) :
    indexOfMin sizes < sizes.length := by
  rw [indexOfMin]
  exact List.indexOf_lt_length.mpr (listMin_mem sizes h)

theorem flatten_set_append (L : List (List Nat)) (b : Nat) (x : Nat)
    (hb : b < L.length) :
    (L.set b (L.getD b [] ++ [x])).flatten.Perm (L.flatten ++ [x]) := by
  induction L generalizing b with
  | nil => simp at hb
  | cons h t ih =>
    cases b with
    | zero =>
      simp only [List.set_cons_zero, List.getD_cons_zero, List.flatten_cons]
      have h1 : (h ++ [x]) ++ t.flatten = h ++ ([x] ++ t.flatten) := by
        rw [List.append_assoc]
      have h2 : (h ++ t.flatten) ++ [x] = h ++ (t.flatten ++ [x]) := by
        rw [List.append_assoc]
      rw [h1, h2]
      exact List.Perm.append_left h List.perm_append_comm
    | succ b2 =>
      simp only [List.set_cons_succ, List.getD_cons_succ, List.flatten_cons]
      have hb2 : b2 < t.length := by simpa using hb
      have h2 : (h ++ t.flatten) ++ [x] = h ++ (t.flatten ++ [x]) := by
        rw [List.append_assoc]
      rw [h2]
      exact List.Perm.append_left h (ih b2 hb2)

theorem foldl_packStep_lengths (ps : List (Nat × Nat))
    (st : List (List Nat) × List Nat) :
    (ps.foldl packStep st).1.length = st.1.length
    ∧ (ps.foldl packStep st).2.length = st.2.length := by
  induction ps generalizing st with
  | nil => exact ⟨rfl, rfl⟩
  | cons p rest ih =>
    rw [List.foldl_cons]
    have hstep : (packStep st p).1.length = st.1.length
        ∧ (packStep st p).2.length = st.2.length := by
      constructor <;> simp [packStep]
    have h2 := ih (packStep st p)
    exact ⟨h2.1.trans hstep.1, h2.2.trans hstep.2⟩

theorem foldl_packStep_flatten (ps : List (Nat × Nat)) (bins : List (List Nat))
    (totals : List Nat) (hlen : bins.length = totals.length)
    (hpos : 0 < totals.length) :
    ((ps.foldl packStep (bins, totals)).1).flatten.Perm
      (bins.flatten ++ ps.map Prod.fst) := by
  induction ps generalizing bins totals with
  | nil => simp
  | cons p rest ih =>
    rw [List.foldl_cons]
    have hne : totals ≠ [] := by
      intro hemp
      rw [hemp] at hpos
      simp at hpos
    have hb : indexOfMin totals < totals.length := indexOfMin_lt totals hne
    have hb1 : indexOfMin totals < bins.length := by
      rw [hlen]
      exact hb
    have hstep : packStep (bins, totals) p
        = (bins.set (indexOfMin totals)
            (bins.getD (indexOfMin totals) [] ++ [p.1]),
           totals.set (indexOfMin totals)
            (totals.getD (indexOfMin totals) 0 + p.2)) := rfl
    rw [hstep]
    have hlen2 : (bins.set (indexOfMin totals)
        (bins.getD (indexOfMin totals) [] ++ [p.1])).length
        = (totals.set (indexOfMin totals)
            (totals.getD (indexOfMin totals) 0 + p.2)).length := by
      simp [hlen]
    have hpos2 : 0 < (totals.set (indexOfMin totals)
        (totals.getD (indexOfMin totals) 0 + p.2)).length := by
      simpa using hpos
    have hrec := ih _ _ hlen2 hpos2
    have hset := flatten_set_append bins (indexOfMin totals) p.1 hb1
    have hcomb : ((bins.set (indexOfMin totals)
        (bins.getD (indexOfMin totals) [] ++ [p.1])).flatten
          ++ rest.map Prod.fst).Perm
        ((bins.flatten ++ [p.1]) ++ rest.map Prod.fst) :=
      hset.append_right (rest.map Prod.fst)
    refine hrec.trans (hcomb.trans ?_)
    rw [List.append_assoc, List.singleton_append, ← List.map_cons]

theorem flatten_replicate_nil (n : Nat) :
    (List.replicate n ([] : List Nat)).flatten = [] := by
  induction n with
  | zero => rfl
  | succ m ih => simp [List.replicate_succ, ih]

theorem map_getD_range (l : List Nat) :
    (List.range l.length).map (fun i => l.getD i 0) = l := by
  induction l with
  | nil => simp
  | cons x xs ih =>
    rw [List.length_cons, List.range_succ_eq_map, List.map_cons, List.map_map]
    have hcomp : (fun i => (x :: xs).getD i 0) ∘ Nat.succ
        = fun i => xs.getD i 0 := rfl
    rw [hcomp, ih]
    rfl

theorem pairs_eq_enum_sizes (ts : List TensorMeta) :
    ts.enum.map (fun it => (it.1, tensorByteSize it.2))
      = (ts.map tensorByteSize).enum := by
  rw [List.enum_map]
  apply List.map_congr_left
  intro a _
  cases a
  rfl

theorem assign_length (ts : List TensorMeta) (B : Nat) :
    (assign_tensors_to_bins ts B).length = B := by
  unfold assign_tensors_to_bins
  rw [(foldl_packStep_lengths _ _).1]
  simp

theorem assign_flatten_perm (ts : List TensorMeta) (B : Nat) (hB : 0 < B) :
    (assign_tensors_to_bins ts B).flatten.Perm (List.range ts.length) := by
  unfold assign_tensors_to_bins
  have hpos0 : 0 < (List.replicate B (0 : Nat)).length := by simpa
  have h1 := foldl_packStep_flatten
    (List.insertionSort (fun a b => a.2 ≤ b.2)
      (ts.enum.map (fun it => (it.1, tensorByteSize it.2))))
    (List.replicate B []) (List.replicate B 0) (by simp) hpos0
  rw [flatten_replicate_nil, List.nil_append] at h1
  refine h1.trans ?_
  have hfst : (ts.enum.map (fun it => (it.1, tensorByteSize it.2))).map Prod.fst
      = List.range ts.length := by
    rw [List.map_map]
    have hcomp : (Prod.fst ∘ fun it : Nat × TensorMeta => (it.1, tensorByteSize it.2))
        = Prod.fst := rfl
    rw [hcomp, List.enum_map_fst]
  rw [← hfst]
  exact (List.perm_insertionSort _ _).map Prod.fst

theorem assign_sizes_determine (ts ts' : List TensorMeta)
    (h : ts.map tensorByteSize = ts'.map tensorByteSize) (B : Nat) :
    assign_tensors_to_bins ts B = assign_tensors_to_bins ts' B := by
  unfold assign_tensors_to_bins
  rw [pairs_eq_enum_sizes ts, pairs_eq_enum_sizes ts', h]

/-- C4: for a fixed tensor sequence and bin count `B > 0` the packer
returns exactly `B` groups; the concatenation of the groups is a
permutation of the input index range (every tensor index appears in
exactly one group), the groups are pairwise disjoint, the per-bin byte
sizes sum to the total input byte size, and the result is a function of
the byte-size sequence alone (determinism). -/
theorem assign_partition_props (ts : List TensorMeta) (B : Nat) (hB : 0 < B) :
    (assign_tensors_to_bins ts B).length = B
    ∧ (assign_tensors_to_bins ts B).flatten.Perm (List.range ts.length)
    ∧ List.Pairwise List.Disjoint (assign_tensors_to_bins ts B)
    ∧ ((assign_tensors_to_bins ts B).map
        (fun g => (g.map (fun i => (ts.map tensorByteSize).getD i 0)).sum)).sum
      = (ts.map tensorByteSize).sum
    ∧ ∀ ts' : List TensorMeta,
        ts.map tensorByteSize = ts'.map tensorByteSize →
        assign_tensors_to_bins ts B = assign_tensors_to_bins ts' B := by
  have hflat := assign_flatten_perm ts B hB
  have hnodup : (assign_tensors_to_bins ts B).flatten.Nodup :=
    (hflat.symm).nodup (List.nodup_range _)
  refine ⟨assign_length ts B, hflat, (List.nodup_flatten.mp hnodup).2, ?_,
    fun ts' h => assign_sizes_determine ts ts' h B⟩
  have hs1 : ((assign_tensors_to_bins ts B).map
      (fun g => (g.map (fun i => (ts.map tensorByteSize).getD i 0)).sum)).sum
      = ((assign_tensors_to_bins ts B).flatten.map
          (fun i => (ts.map tensorByteSize).getD i 0)).sum := by
    rw [List.map_flatten, List.sum_flatten, List.map_map]
    rfl
  rw [hs1, (hflat.map (fun i => (ts.map tensorByteSize).getD i 0)).sum_eq]
  have hlen2 : ts.length = (ts.map tensorByteSize).length := by simp
  rw [hlen2, map_getD_range]


theorem assign_partition_props_witness :
    (assign_tensors_to_bins [⟨10, 1⟩, ⟨20, 1⟩, ⟨30, 1⟩] 2).length = 2
    ∧ assign_tensors_to_bins [⟨10, 1⟩, ⟨20, 1⟩, ⟨30, 1⟩] 2 = [[0, 2], [1]] := by
  have h := assign_partition_props [⟨10, 1⟩, ⟨20, 1⟩, ⟨30, 1⟩] 2 (by decide)
  exact ⟨h.1, by decide⟩

/-! ## Replicated-data shard load (`_xser_load_data`) -/

structure TensorRef where
  tid : Nat
deriving DecidableEq

structure TensorInfo where
  shape : List Nat
  dtype : String
deriving DecidableEq

/-- What `convert_fn` materializes for one tensor reference before the
group collective: the object read from its tensor file on disk, or a
zero tensor of the recorded shape and dtype.  (The later
`xm.all_reduce` sum over the group broadcasts the one disk copy; it is a
collective over ranks and does not change which rank reads from disk, so
it is not modelled.) -/
inductive LoadAction where
  | readDisk (tensor_file : String)
  | zeros (shape : List Nat) (dtype : String)
deriving DecidableEq

/-- `os.path.join(tensor_folder, "tensor_{}.pt".format(t.tid))` (line 266). -/
def tensorFileName (tensor_folder : String) (tid : Nat) : String :=
  tensor_folder ++ "/tensor_" ++ toString tid ++ ".pt"

/-- The per-tensor body of `convert_fn` in `_xser_load_data`
(lines 265-287): when both the side table and a rank group are present,
the reader is chosen round-robin by `t.tid % my_group_size`, other ranks
make zeros of the recorded shape and dtype; otherwise the tensor is read
from disk unconditionally.  `group_info` is
`(my_rank_in_group, my_group_size)`. -/
def convert_one (tensor_folder : String) (ref_info : Option (Nat → TensorInfo))
    (group_info : Option (Nat × Nat)) (t : TensorRef) : LoadAction :=
  match ref_info, group_info with
  | some info, some gi =>
    if t.tid % gi.2 = gi.1 then
      LoadAction.readDisk (tensorFileName tensor_folder t.tid)
    else
      LoadAction.zeros (info t.tid).shape (info t.tid).dtype
  | _, _ => LoadAction.readDisk (tensorFileName tensor_folder t.tid)

/-- `convert_fn` over the selected tensor references. -/
def convert_fn (tensor_folder : String) (ref_info : Option (Nat → TensorInfo))
    (group_info : Option (Nat × Nat)) (tensors : List TensorRef) :
    List LoadAction :=
  tensors.map (convert_one tensor_folder ref_info group_info)

/-- `_get_my_group_info(groups)` (lines 236-242): find the first group
containing the caller's rank and return (rank-in-group, group size);
raise when no group contains it. -/
def get_my_group_info (groups : List (List Nat)) (global_rank : Nat) :
    Except String (Nat × Nat) :=
  match groups with
  | [] => Except.error "Error: global rank is not in groups"
  | g :: gs =>
    if global_rank ∈ g then Except.ok (g.indexOf global_rank, g.length)
    else get_my_group_info gs global_rank

/-- `_xser_load_data` (lines 245-296) as observed per rank:
`info_exists` models `checkpoint_dir.file_exists(path + ".info.pt")` and
`ref_info` the side table it would load.  Group info is computed exactly
when `groups is not None` (line 259), which can raise; the per-tensor
load actions follow `convert_fn`. -/
def xser_load_data (tensor_folder : String) (info_exists : Bool)
    (ref_info : Nat → TensorInfo) (groups : Option (List (List Nat)))
    (global_rank : Nat) (tensors : List TensorRef) :
    Except String (List LoadAction) :=
  let info := if info_exists then some ref_info else none
  match groups with
  | none => Except.ok (convert_fn tensor_folder info none tensors)
  | some gs =>
    match get_my_group_info gs global_rank with
    | Except.error e => Except.error e
    | Except.ok gi => Except.ok (convert_fn tensor_folder info (some gi) tensors)

theorem countP_mod_eq (g r : Nat) (hr : r < g) (n : Nat) :
    (List.range n).countP (fun i => decide (i % g = r)) = (n + g - 1 - r) / g := by
  induction n with
  | zero =>
    rw [List.range_zero]
    have hlt : g - 1 - r < g := by omega
    rw [show (0 + g - 1 - r) = g - 1 - r by omega, Nat.div_eq_of_lt hlt]
    rfl
  | succ n ih =>
    rw [List.range_succ, List.countP_append, ih]
    have hm : n + 1 + g - 1 - r = (n + g - 1 - r) + 1 := by omega
    rw [hm, Nat.succ_div]
    have hdvd : g ∣ (n + g - 1 - r) + 1 ↔ n % g = r := by
      have harg : (n + g - 1 - r) + 1 = n + g - r := by omega
      rw [harg]
      constructor
      · intro hd
        obtain ⟨k, hk⟩ := hd
        cases k with
        | zero =>
          rw [Nat.mul_zero] at hk
          omega
        | succ k2 =>
          rw [Nat.mul_succ] at hk
          set a := g * k2 with ha
          have hn : n = a + r := by omega
          rw [hn, ha, Nat.mul_add_mod]
          exact Nat.mod_eq_of_lt hr
      · intro hmod
        have hdm := Nat.div_add_mod n g
        set a := g * (n / g) with ha
        have harr : n + g - r = a + g := by omega
        rw [harr, ha]
        exact ⟨n / g + 1, by rw [Nat.mul_succ]⟩
    by_cases hcase : n % g = r
    · rw [if_pos (hdvd.mpr hcase), List.countP_cons]
      simp [hcase]
    · have hnd : ¬ g ∣ (n + g - 1 - r) + 1 := fun hd => hcase (hdvd.mp hd)
      rw [if_neg hnd, List.countP_cons]
      simp [hcase]

/-- C5: during replicated sharded load with group size `g`, rank-in-group
`r < g` and the side table present, a tensor is read from disk exactly
when `tid % g = r` and otherwise becomes a zero tensor of the recorded
shape and dtype; over tensor ids `0..n-1` a single rank reads at most
`ceil(n / g) = (n + g - 1) / g` tensors from disk. -/
theorem replicated_load_round_robin (folder : String) (info : Nat → TensorInfo)
    (r g n : Nat) (hg : 0 < g) (hr : r < g) :
    (∀ tid : Nat,
      convert_one folder (some info) (some (r, g)) ⟨tid⟩
        = if tid % g = r then LoadAction.readDisk (tensorFileName folder tid)
          else LoadAction.zeros (info tid).shape (info tid).dtype)
    ∧ (convert_fn folder (some info) (some (r, g))
        ((List.range n).map (fun i => ⟨i⟩))).countP
        (fun a => match a with
          | LoadAction.readDisk _ => true
          | _ => false)
        ≤ (n + g - 1) / g := by
  constructor
  · intro tid
    by_cases h : tid % g = r
    · simp [convert_one, h]
    · simp [convert_one, h]
  · rw [convert_fn, List.map_map, List.countP_map]
    have hcong : (List.range n).countP
        ((fun a => match a with
          | LoadAction.readDisk _ => true
          | _ => false) ∘ (convert_one folder (some info) (some (r, g))
            ∘ fun i => ⟨i⟩))
        = (List.range n).countP (fun i => decide (i % g = r)) := by
      apply List.countP_congr
      intro i _
      simp only [Function.comp_apply]
      by_cases h : i % g = r
      · simp [convert_one, h]
      · simp [convert_one, h]
    rw [hcong, countP_mod_eq g r hr n]
    exact Nat.div_le_div_right (by omega)

theorem replicated_load_round_robin_witness :
    convert_one "t" (some (fun _ => ⟨[2], "f32"⟩)) (some (1, 2)) ⟨3⟩
      = LoadAction.readDisk (tensorFileName "t" 3)
    ∧ (convert_fn "t" (some (fun _ => ⟨[2], "f32"⟩)) (some (1, 2))
        ((List.range 5).map (fun i => ⟨i⟩))).countP
        (fun a => match a with
          | LoadAction.readDisk _ => true
          | _ => false) ≤ 3 := by
  have h := replicated_load_round_robin "t" (fun _ => ⟨[2], "f32"⟩) 1 2 5
    (by decide) (by decide)
  constructor
  · rw [h.1 3]
    decide
  · exact h.2

theorem convert_one_fallback (folder : String) (oi : Option (Nat → TensorInfo))
    (gi : Option (Nat × Nat)) (t : TensorRef) (h : oi = none ∨ gi = none) :
    convert_one folder oi gi t = LoadAction.readDisk (tensorFileName folder t.tid) := by
  rcases h with rfl | rfl
  · cases gi <;> rfl
  · cases oi <;> rfl

theorem get_my_group_info_ok (gs : List (List Nat)) (rank : Nat)
    (h : ∃ g ∈ gs, rank ∈ g) :
    ∃ gi, get_my_group_info gs rank = Except.ok gi := by
  induction gs with
  | nil =>
    obtain ⟨g, hg, _⟩ := h
    cases hg
  | cons g0 rest ih =>
    by_cases hmem : rank ∈ g0
    · exact ⟨(g0.indexOf rank, g0.length), by simp [get_my_group_info, hmem]⟩
    · have h2 : ∃ g ∈ rest, rank ∈ g := by
        obtain ⟨g, hg, hr2⟩ := h
        rcases List.mem_cons.mp hg with rfl | hg2
        · exact absurd hr2 hmem
        · exact ⟨g, hg2, hr2⟩
      obtain ⟨gi, hgi⟩ := ih h2
      exact ⟨gi, by simp [get_my_group_info, hmem, hgi]⟩

/-- C6, counterexample: the claim as stated is false.  With the side
table missing but a rank-group list supplied that does not contain the
calling rank, `_xser_load_data` still calls `_get_my_group_info`
(line 259-260) and raises, instead of silently reading everything from
disk. -/
theorem xser_load_missing_info_counterexample :
    ¬ (∀ (folder : String) (info_exists : Bool) (info : Nat → TensorInfo)
        (groups : Option (List (List Nat))) (rank : Nat)
        (tensors : List TensorRef),
        (info_exists = false ∨ groups = none) →
        xser_load_data folder info_exists info groups rank tensors
          = Except.ok (tensors.map
              (fun t => LoadAction.readDisk (tensorFileName folder t.tid)))) := by
  intro h
  have h2 := h "p" false (fun _ => ⟨[], "f32"⟩) (some [[1]]) 0 [⟨0⟩] (Or.inl rfl)
  have h3 : xser_load_data "p" false (fun _ => ⟨[], "f32"⟩) (some [[1]]) 0 [⟨0⟩]
      = Except.error "Error: global rank is not in groups" := rfl
  rw [h3] at h2
  exact Except.noConfusion h2

/-- C6, amended: for every sharded load call where the side-table file
does not exist or no rank group is supplied - provided that, when a
group list is supplied, the calling rank belongs to one of its groups -
no error is raised and every rank independently reads each tensor's full
bytes from disk. -/
theorem xser_load_fallback_reads_all (folder : String) (info_exists : Bool)
    (info : Nat → TensorInfo) (groups : Option (List (List Nat))) (rank : Nat)
    (tensors : List TensorRef)
    (hmiss : info_exists = false ∨ groups = none)
    (hrank : ∀ gs, groups = some gs → ∃ g ∈ gs, rank ∈ g) :
    xser_load_data folder info_exists info groups rank tensors
      = Except.ok (tensors.map
          (fun t => LoadAction.readDisk (tensorFileName folder t.tid))) := by
  cases groups with
  | none =>
    show Except.ok (convert_fn folder
        (if info_exists then some info else none) none tensors) = _
    congr 1
    apply List.map_congr_left
    intro t _
    exact convert_one_fallback folder _ none t (Or.inr rfl)
  | some gs =>
    have hmiss2 : info_exists = false := by
      rcases hmiss with hm | hm
      · exact hm
      · cases hm
    obtain ⟨gi, hgi⟩ := get_my_group_info_ok gs rank (hrank gs rfl)
    subst hmiss2
    simp only [xser_load_data, hgi]
    apply congrArg
    rw [convert_fn]
    apply List.map_congr_left
    intro t _
    exact convert_one_fallback folder _ (some gi) t (Or.inl rfl)

theorem xser_load_fallback_witness :
    xser_load_data "p" false (fun _ => ⟨[], "f32"⟩) (some [[0, 1]]) 1 [⟨0⟩, ⟨1⟩]
      = Except.ok [LoadAction.readDisk (tensorFileName "p" 0),
          LoadAction.readDisk (tensorFileName "p" 1)] := by
  have h := xser_load_fallback_reads_all "p" false (fun _ => ⟨[], "f32"⟩)
    (some [[0, 1]]) 1 [⟨0⟩, ⟨1⟩] (Or.inl rfl)
    (by
      intro gs hgs
      injection hgs with h2
      subst h2
      exact ⟨[0, 1], by decide, by decide⟩)
  simpa using h


/-! ## Lifecycle state (`CheckpointIOState`)

The live state is embedded with the payload type `α` kept abstract.  In
synchronous mode `checkpoint_dir.save_object(obj, filename)` is observed
through the list of (payload, path) pairs written so far. -/

/-- Python `s.startswith(pre)`, written on the character lists so that
concrete instances evaluate. -/
def py_starts_with (s pre : String) : Bool := pre.data.isPrefixOf s.data

/-- Python `s[n:]` (character slicing). -/
def py_drop (s : String) (n : Nat) : String := String.mk (s.data.drop n)

structure CheckpointIOState (α : Type) where
  async_save : Bool
  current_tag : String
  relative_filenames : List String
  save_items : List (α × String)
  written_objects : List (α × String)

/-- `CheckpointIOState.add_save_task(obj, filename)` (lines 115-123).
The Python `assert filename.startswith(self._current_tag + "/")` becomes
the error case (an `AssertionError` leaves the state unchanged);
`filename[len(self._current_tag) + 1:]` is added to the written-paths
set; asynchronous mode appends the pair to `_save_items`, synchronous
mode writes the object immediately. -/
def add_save_task {α : Type} (s : CheckpointIOState α) (obj : α)
    (filename : String) : Except String (CheckpointIOState α) :=
  if py_starts_with filename (s.current_tag ++ "/") then
    let relative_filename := py_drop filename (s.current_tag.data.length + 1)
    let s2 := { s with
      relative_filenames := s.relative_filenames.insert relative_filename }
    if s2.async_save then
      Except.ok { s2 with save_items := s2.save_items ++ [(obj, filename)] }
    else
      Except.ok { s2 with
        written_objects := s2.written_objects ++ [(obj, filename)] }
  else
    Except.error "AssertionError"

/-- C7: `add_save_task` fails (no state change, nothing written) exactly
when the destination path is not rooted under the current tag; otherwise
the tag-relative path is inserted into the written-paths set and the
(payload, path) pair is appended to the pending save items in
asynchronous mode or to the immediately-written objects in synchronous
mode. -/
theorem add_save_task_spec {α : Type} (s : CheckpointIOState α) (obj : α)
    (filename : String) :
    (¬ py_starts_with filename (s.current_tag ++ "/") = true →
      add_save_task s obj filename = Except.error "AssertionError")
    ∧ (py_starts_with filename (s.current_tag ++ "/") = true →
        (s.async_save = true →
          add_save_task s obj filename = Except.ok { s with
            relative_filenames := s.relative_filenames.insert
              (py_drop filename (s.current_tag.data.length + 1)),
            save_items := s.save_items ++ [(obj, filename)] })
        ∧ (s.async_save = false →
          add_save_task s obj filename = Except.ok { s with
            relative_filenames := s.relative_filenames.insert
              (py_drop filename (s.current_tag.data.length + 1)),
            written_objects := s.written_objects ++ [(obj, filename)] })
        ∧ py_drop filename (s.current_tag.data.length + 1)
            ∈ (s.relative_filenames.insert
                (py_drop filename (s.current_tag.data.length + 1)))) := by
  constructor
  · intro h
    rw [add_save_task, if_neg h]
  · intro h
    refine ⟨?_, ?_, List.mem_insert_self _ _⟩
    · intro ha
      simp [add_save_task, h, ha]
    · intro ha
      simp [add_save_task, h, ha]

theorem add_save_task_spec_witness :
    add_save_task
      (CheckpointIOState.mk true "ckpt-1" [] [] ([] : List (Nat × String)))
      7 "ckpt-1/model/a.pt"
      = Except.ok (CheckpointIOState.mk true "ckpt-1" ["model/a.pt"]
          [(7, "ckpt-1/model/a.pt")] [])
    ∧ add_save_task
      (CheckpointIOState.mk true "ckpt-1" [] [] ([] : List (Nat × String)))
      7 "other/model/a.pt" = Except.error "AssertionError" := by
  constructor
  · have h := ((add_save_task_spec
      (CheckpointIOState.mk true "ckpt-1" [] [] ([] : List (Nat × String)))
      7 "ckpt-1/model/a.pt").2 (by decide)).1 rfl
    rw [h]
    rfl
  · exact (add_save_task_spec
      (CheckpointIOState.mk true "ckpt-1" [] [] ([] : List (Nat × String)))
      7 "other/model/a.pt").1 (by decide)

/-! ## Draining an asynchronous save (`wait_save`) -/

/-- The externally visible steps of `CheckpointIOState.wait_save`
(lines 140-167), in program order on one rank. -/
inductive DrainOp where
  | waitSaveFuture
  | barrier (name : String)
  | writeDone
  | waitRemove
  | submitRemove (async_remove : Bool)
deriving DecidableEq

/-- `CheckpointIOState.wait_save(async_remove)` (lines 140-167) as the
sequence of steps one rank performs, paired with the error it re-raises
(if any).  `save_pending` models `self._save_task` being set,
`save_failed` the future holding a captured exception, `rank0` whether
this process is the coordinator.  A captured failure is re-raised right
after the wait, aborting before any barrier and before `done` is
written; otherwise all ranks barrier, the coordinator writes `done`
(only when a save task was pending), all ranks barrier again, the
outstanding removal is drained and the next removal is submitted with
the caller's `async_remove`. -/
def wait_save (async_save rank0 save_pending save_failed async_remove : Bool) :
    List DrainOp × Option String :=
  if !async_save then ([], none)
  else if save_pending && save_failed then
    ([DrainOp.waitSaveFuture], some "exception re-raised from save future")
  else
    ((if save_pending then [DrainOp.waitSaveFuture] else [])
      ++ [DrainOp.barrier "async saving checkpoint done"]
      ++ (if save_pending && rank0 then [DrainOp.writeDone] else [])
      ++ [DrainOp.barrier "mark checkpoint as done"]
      ++ [DrainOp.waitRemove, DrainOp.submitRemove async_remove], none)

/-- C9: an asynchronous-mode drain with an outstanding save future
first waits on the future; a captured failure is re-raised and aborts
the drain before the `done` marker is written; without failure the ranks
barrier, the coordinator writes `done`, the ranks barrier again, the
outstanding removal is drained and the queued retention is submitted
with the caller's `async_remove` flag. -/
theorem wait_save_drain_protocol (rank0 save_failed async_remove : Bool) :
    (save_failed = true →
      wait_save true rank0 true save_failed async_remove
        = ([DrainOp.waitSaveFuture], some "exception re-raised from save future")
      ∧ DrainOp.writeDone ∉ (wait_save true rank0 true save_failed async_remove).1)
    ∧ (save_failed = false →
      wait_save true rank0 true save_failed async_remove
        = ([DrainOp.waitSaveFuture, DrainOp.barrier "async saving checkpoint done"]
            ++ (if rank0 then [DrainOp.writeDone] else [])
            ++ [DrainOp.barrier "mark checkpoint as done",
                DrainOp.waitRemove, DrainOp.submitRemove async_remove], none)) := by
  constructor
  · intro h
    subst h
    refine ⟨rfl, ?_⟩
    intro hmem
    have h2 : DrainOp.writeDone ∈ [DrainOp.waitSaveFuture] := hmem
    simp at h2
  · intro h
    subst h
    cases rank0 <;> rfl

theorem wait_save_drain_protocol_witness :
    wait_save true true true false true
      = ([DrainOp.waitSaveFuture, DrainOp.barrier "async saving checkpoint done",
          DrainOp.writeDone, DrainOp.barrier "mark checkpoint as done",
          DrainOp.waitRemove, DrainOp.submitRemove true], none) := by
  have h := (wait_save_drain_protocol true false true).2 rfl
  rw [h]
  rfl

/-! ## `load_checkpoint` tag selection and user content -/

/-- The storage observations `load_checkpoint` needs: the ordered
completed-tag listing (`list_completed_checkpoint_tags`), file
existence, and object loading, with the payload type abstract. -/
structure LoadStorage (α : Type) where
  completed_checkpoint_tags : List String
  file_exists : String → Bool
  load_object : String → α

/-- Lines 694-698 of `load_checkpoint`: the returned user content is the
object loaded from `<tag>/user_content.pt` when that file exists, else
`None`. -/
def load_user_content {α : Type} (s : LoadStorage α) (t : String) : Option α :=
  if s.file_exists (t ++ "/user_content.pt") then
    some (s.load_object (t ++ "/user_content.pt"))
  else
    none

/-- `load_checkpoint(path, tag, ...)` (lines 617-704) restricted to tag
selection and the user-content result (the model, optimizer and
scheduler arguments are omitted, i.e. `None`): with `tag = None` an
empty completed listing raises, otherwise the last listed completed tag
(`tags[-1]`) is selected (lines 650-654). -/
def load_checkpoint {α : Type} (s : LoadStorage α) (tag : Option String) :
    Except String (Option α) :=
  match tag with
  | some t => Except.ok (load_user_content s t)
  | none =>
    if s.completed_checkpoint_tags.length = 0 then
      Except.error "Error: no checkpoint under directory"
    else
      Except.ok (load_user_content s (s.completed_checkpoint_tags.getLastD ""))

/-- C10: a tag-less load with no completed tags raises an explicit
error and loads nothing; otherwise the newest (last-listed) completed
tag is selected; and for every selected tag the call returns `None`
without raising when `user_content.pt` is absent under it, else the
object loaded from that file. -/
theorem load_checkpoint_selection {α : Type} (s : LoadStorage α) :
    (s.completed_checkpoint_tags = [] →
      load_checkpoint s none
        = Except.error "Error: no checkpoint under directory")
    ∧ (s.completed_checkpoint_tags ≠ [] →
      load_checkpoint s none
        = Except.ok (load_user_content s
            (s.completed_checkpoint_tags.getLastD "")))
    ∧ (∀ t : String,
        (s.file_exists (t ++ "/user_content.pt") = false →
          load_checkpoint s (some t) = Except.ok none)
        ∧ (s.file_exists (t ++ "/user_content.pt") = true →
          load_checkpoint s (some t)
            = Except.ok (some (s.load_object (t ++ "/user_content.pt"))))) := by
  refine ⟨?_, ?_, ?_⟩
  · intro h
    rw [load_checkpoint]
    rw [if_pos (by rw [h]; rfl)]
  · intro h
    rw [load_checkpoint]
    rw [if_neg (by
      intro hlen
      exact h (List.length_eq_zero.mp hlen))]
  · intro t
    constructor
    · intro h
      rw [load_checkpoint, load_user_content, if_neg (by rw [h]; intro hc; cases hc)]
    · intro h
      rw [load_checkpoint, load_user_content, if_pos h]

theorem load_checkpoint_selection_witness :
    load_checkpoint (LoadStorage.mk ["t1", "t2"]
        (fun p => p == "t2/user_content.pt") (fun _ => (42 : Nat))) none
      = Except.ok (some 42)
    ∧ load_checkpoint (LoadStorage.mk ([] : List String)
        (fun _ => false) (fun _ => (0 : Nat))) none
      = Except.error "Error: no checkpoint under directory" := by
  constructor
  · have h := (load_checkpoint_selection (LoadStorage.mk ["t1", "t2"]
      (fun p => p == "t2/user_content.pt") (fun _ => (42 : Nat)))).2.1
      (List.cons_ne_nil _ _)
    rw [h]
    rfl
  · exact (load_checkpoint_selection (LoadStorage.mk ([] : List String)
      (fun _ => false) (fun _ => (0 : Nat)))).1 rfl

/-! ## Deletion protocol (`submit_remove`)

The protocol is executed by all ranks; marker and directory changes are
performed by rank 0 only.  We model the operations one rank performs, in
its program order, and the linearizations of a two-rank execution. -/

inductive StorageOp where
  | removeFile (path : String)
  | removeFiles (paths : List String)
  | removeDirs (tags : List String)
  | barrier (name : String)
deriving DecidableEq

/-- `CheckpointIOState.submit_remove(num_kept, async_remove=False,
remove_tags)` (lines 169-207), synchronous-removal path, as the ordered
storage and synchronization operations one rank performs.
`done_exists` models `checkpoint_dir.file_exists`; `remove_tags` is the
already-determined removal set; `rels` this rank's recorded relative
filenames.  Rank 0 first removes the `done` marker of every completed
tag in the removal set (lines 177-189); every rank then deletes the
crossed file list (lines 191-202); after the rendezvous rank 0 removes
the tag directories (lines 203-207).  No rendezvous separates the
marker removals from the other ranks' `remove_files` calls. -/
def submit_remove_ops (rank : Nat) (done_exists : String → Bool)
    (remove_tags : List String) (rels : List String) : List StorageOp :=
  [StorageOp.barrier "determine remove tags done"]
    ++ (if remove_tags.length = 0 then []
        else
          (if rank = 0 then
            (remove_tags.filter (fun t => done_exists (t ++ "/done"))).map
              (fun t => StorageOp.removeFile (t ++ "/done"))
          else [])
          ++ [StorageOp.removeFiles
              (remove_tags.flatMap (fun t => rels.map (fun f => t ++ "/" ++ f)))]
          ++ [StorageOp.barrier "remove files done"]
          ++ (if rank = 0 then [StorageOp.removeDirs remove_tags] else []))

/-- A linearization of the two ranks' operation sequences: each event is
tagged with the rank performing it, and each rank observes its own
program order. -/
inductive Interleaves :
    List (Nat × StorageOp) → List StorageOp → List StorageOp → Prop where
  | nil : Interleaves [] [] []
  | left (op : StorageOp) (e : List (Nat × StorageOp)) (t0 t1 : List StorageOp) :
      Interleaves e t0 t1 → Interleaves ((0, op) :: e) (op :: t0) t1
  | right (op : StorageOp) (e : List (Nat × StorageOp)) (t0 t1 : List StorageOp) :
      Interleaves e t0 t1 → Interleaves ((1, op) :: e) t0 (op :: t1)

/-- A rendezvous blocks both ranks until both arrive, so in a
linearization the two ranks' events for one barrier appear adjacently;
this restricts the executions to barrier-respecting ones. -/
def barriersAligned : List (Nat × StorageOp) → Bool
  | [] => true
  | (r, StorageOp.barrier n) :: rest =>
    match rest with
    | (r2, StorageOp.barrier n2) :: rest2 =>
        (decide (r2 ≠ r)) && (n2 == n) && barriersAligned rest2
    | _ => false
  | _ :: rest => barriersAligned rest

def isDoneRemoval : StorageOp → Bool
  | StorageOp.removeFile _ => true
  | _ => false

def isPayloadRemoval : StorageOp → Bool
  | StorageOp.removeFiles _ => true
  | _ => false

/-- In the linearized execution, every `done`-marker removal happens
before every payload-file removal. -/
def MarkersPrecedePayloads (e : List (Nat × StorageOp)) : Prop :=
  ∀ i j : Fin e.length,
    isDoneRemoval (e.get i).2 = true → isPayloadRemoval (e.get j).2 = true →
    (i : Nat) < (j : Nat)

/-- C8: the claim fails on the code.  In a two-rank execution of the
synchronous deletion protocol on the removal set `["tag1"]` (completed:
its `done` marker exists) there is a barrier-respecting linearization in
which rank 1 removes payload files before rank 0 has removed the `done`
marker: no rendezvous orders lines 177-189 (rank 0 marker removal)
before line 202 (`remove_files` on every rank). -/
theorem submit_remove_marker_payload_race :
    ∃ e : List (Nat × StorageOp),
      Interleaves e
        (submit_remove_ops 0 (fun _ => true) ["tag1"] ["model/a.pt"])
        (submit_remove_ops 1 (fun _ => true) ["tag1"] ["model/a.pt"])
      ∧ barriersAligned e = true
      ∧ ¬ MarkersPrecedePayloads e := by
  have h0 : submit_remove_ops 0 (fun _ => true) ["tag1"] ["model/a.pt"]
      = [StorageOp.barrier "determine remove tags done",
         StorageOp.removeFile "tag1/done",
         StorageOp.removeFiles ["tag1/model/a.pt"],
         StorageOp.barrier "remove files done",
         StorageOp.removeDirs ["tag1"]] := by decide
  have h1 : submit_remove_ops 1 (fun _ => true) ["tag1"] ["model/a.pt"]
      = [StorageOp.barrier "determine remove tags done",
         StorageOp.removeFiles ["tag1/model/a.pt"],
         StorageOp.barrier "remove files done"] := by decide
  refine ⟨[(0, StorageOp.barrier "determine remove tags done"),
           (1, StorageOp.barrier "determine remove tags done"),
           (1, StorageOp.removeFiles ["tag1/model/a.pt"]),
           (0, StorageOp.removeFile "tag1/done"),
           (0, StorageOp.removeFiles ["tag1/model/a.pt"]),
           (0, StorageOp.barrier "remove files done"),
           (1, StorageOp.barrier "remove files done"),
           (0, StorageOp.removeDirs ["tag1"])], ?_, ?_, ?_⟩
  · rw [h0, h1]
    repeat constructor
  · decide
  · intro hmp
    have hlt := hmp ⟨3, by decide⟩ ⟨2, by decide⟩ (by decide) (by decide)
    have hlt2 : (3 : Nat) < 2 := hlt
    omega
